import Mathlib

/-!
Verification development for the BetEnder market-viewer pricing and refresh
engine.  The definitions below are a shallow embedding of the hot-path code:

* the weight-aware batcher `createBatches` and the multicall result
  processing `processMulticallResults` follow the implementation pseudocode
  of the Market Viewer refinement plan (Phases 4 and 5 and the appendix);
* the failure-isolation step `processBatchOutcome` follows the
  try/catch around `multicall.execute` in the "Failure Isolation" section;
* the interest tracker follows `PoolController.handleTokenInterest` as
  quoted in the scenario trace analysis, together with the ref-counting
  increment/decrement of Phase 3 of the refinement plan;
* the reclaimer sweep `cleanupPools` follows `GCManager.cleanupPools` in
  `server/application/services/RequestBatcher.ts`;
* the pricing resolver follows `SpotPricingEngine.computeSpotPrice`.

Addresses and chain ids are abstracted as natural numbers; address
normalisation (`toLowerCase` in the source) is the identity on this abstract
address type.  JavaScript number arithmetic on prices is modelled over `ℚ`;
where the source's float semantics matters (division by a zero price in the
volatility tier computation) the case split is made explicit.  Timestamps
(`Date.now()`) are naturals; the unbounded recursion of `computeSpotPrice`
is modelled with an explicit fuel argument whose exhaustion is a distinct
outcome from a null price.
-/

namespace BetEnder

/-- Abstract on-chain address (the source uses lowercase hex strings). -/
abbrev Addr := Nat

/-- Composite pool key, mirroring the string key
built from the chain id and the pool address in the source. -/
abbrev PoolKey := Nat × Addr

/-- Volatility tier of a pool, controlling its refresh cadence. -/
inductive Tier where
  | high
  | normal
  | low
deriving Repr, DecidableEq

/-- One state-cache entry, mirroring the `CacheEntry` schema of the
refinement plan (Phase 6): pool address, price, liquidity, observation block
number, per-refresh tick identifier, wall-clock timestamp and expiry. -/
structure CacheEntry where
  poolAddress : Addr
  price : ℚ
  liquidity : ℚ
  blockNumber : ℕ
  tickId : ℕ
  timestamp : ℕ
  ttl : ℕ
deriving Repr, DecidableEq

/-- The state cache, keyed by pool address (the source uses a `Map`). -/
abbrev Cache := Addr → Option CacheEntry

/-- Mirrors `cache.set(poolAddress, entry)`. -/
def Cache.setEntry (c : Cache) (a : Addr) (e : CacheEntry) : Cache :=
  fun b => if b = a then some e else c b

/-- Mirrors the TTL-extension write `cache.get(poolAddress).ttl = now + 30s`:
only the expiry of an existing entry changes. -/
def Cache.extendTtl (c : Cache) (a : Addr) (newTtl : ℕ) : Cache :=
  fun b => if b = a then (c b).map (fun e => { e with ttl := newTtl }) else c b

/-- One per-pool outcome inside a multicall batch result, as delivered by the
transport boundary: pool address, per-call success flag, observed block
number, liquidity, and the raw price computed from the returned state (the
kind-specific maths itself is embedded separately with the pricing engine). -/
structure MulticallResult where
  poolAddress : Addr
  success : Bool
  blockNumber : ℕ
  liquidity : ℚ
  rawPrice : ℚ
deriving Repr, DecidableEq

/-- Mirrors `computePrice(result)`: the price derived from the raw returned
state carried on the result. -/
def computePrice (r : MulticallResult) : ℚ := r.rawPrice

/-! ### Failure isolation (refinement plan, "Failure Isolation" section)

The source wraps `multicall.execute(batch, provider)` in a try/catch.  A
successful execution yields a list of per-call results: successful ones are
written to the cache via `updateCache`, failed ones leave the cache alone and
go through `scheduleRetry`.  A thrown transport error reschedules every pool
of the batch and performs no cache mutation. -/

/-- Outcome of one `multicall.execute` round trip: either a per-call result
list, or a thrown transport error for the whole batch. -/
inductive BatchOutcome where
  | ok (results : List MulticallResult)
  | transportError
deriving Repr, DecidableEq

/-- Mirrors `updateCache(result)`: write a fresh entry for the pool, stamped
with the current tick and a 30s expiry (entry shape per Phase 5). -/
def updateCache (now tick : ℕ) (c : Cache) (r : MulticallResult) : Cache :=
  c.setEntry r.poolAddress
    { poolAddress := r.poolAddress
      price := computePrice r
      liquidity := r.liquidity
      blockNumber := r.blockNumber
      tickId := tick
      timestamp := now
      ttl := now + 30000 }

/-- Mirrors `scheduleRetry(poolAddress)`: mark the pool due again. -/
def scheduleRetry (retry : List Addr) (a : Addr) : List Addr := retry ++ [a]

/-- Folding step over the per-call results of a successful batch. -/
def processOneOutcome (now tick : ℕ) (st : Cache × List Addr)
    (r : MulticallResult) : Cache × List Addr :=
  if r.success then (updateCache now tick st.1 r, st.2)
  else (st.1, scheduleRetry st.2 r.poolAddress)

/-- Mirrors the try/catch around `multicall.execute` plus the result loop:
on success each result is processed individually, on a transport error every
pool of the batch is rescheduled and the cache is untouched. -/
def processBatchOutcome (now tick : ℕ) (batch : List Addr) (cache : Cache)
    (retry : List Addr) : BatchOutcome → Cache × List Addr
  | .ok results => results.foldl (processOneOutcome now tick) (cache, retry)
  | .transportError => (cache, batch.foldl scheduleRetry retry)

lemma scheduleRetry_mem {retry : List Addr} {a b : Addr} (h : a ∈ retry) :
    a ∈ scheduleRetry retry b := by
  simp [scheduleRetry, h]

lemma foldl_scheduleRetry_mem (batch : List Addr) (retry : List Addr) (a : Addr)
    (h : a ∈ batch ∨ a ∈ retry) : a ∈ batch.foldl scheduleRetry retry := by
  induction batch generalizing retry with
  | nil => simpa using h.resolve_left (by simp)
  | cons b bs ih =>
      rcases h with h | h
      · rcases List.mem_cons.mp h with rfl | h
        · exact ih _ (Or.inr (by simp [scheduleRetry]))
        · exact ih _ (Or.inl h)
      · exact ih _ (Or.inr (scheduleRetry_mem h))

lemma processResults_cache_eq (now tick : ℕ) (results : List MulticallResult)
    (cache : Cache) (retry : List Addr) (p : Addr)
    (h : ∀ r ∈ results, r.poolAddress = p → r.success = false) :
    (results.foldl (processOneOutcome now tick) (cache, retry)).1 p = cache p := by
  induction results generalizing cache retry with
  | nil => rfl
  | cons r rs ih =>
      by_cases hs : r.success
      · have hne : r.poolAddress ≠ p := by
          intro he
          exact absurd (h r (by simp) he) (by simp [hs])
        simp only [List.foldl_cons, processOneOutcome, hs, if_true]
        rw [ih _ _ (fun r' hr' => h r' (by simp [hr']))]
        simp [updateCache, Cache.setEntry, Ne.symm hne]
      · simp only [List.foldl_cons, processOneOutcome, hs, if_false]
        exact ih _ _ (fun r' hr' => h r' (by simp [hr']))

lemma processResults_retry_mono (now tick : ℕ) (results : List MulticallResult)
    (cache : Cache) (retry : List Addr) (p : Addr) (h : p ∈ retry) :
    p ∈ (results.foldl (processOneOutcome now tick) (cache, retry)).2 := by
  induction results generalizing cache retry with
  | nil => exact h
  | cons r rs ih =>
      by_cases hs : r.success
      · simp only [List.foldl_cons, processOneOutcome, hs, if_true]
        exact ih _ _ h
      · simp only [List.foldl_cons, processOneOutcome, hs, if_false]
        exact ih _ _ (scheduleRetry_mem h)

lemma processResults_retry_of_failed (now tick : ℕ) (results : List MulticallResult)
    (cache : Cache) (retry : List Addr) (p : Addr)
    (h : ∃ r ∈ results, r.poolAddress = p ∧ r.success = false) :
    p ∈ (results.foldl (processOneOutcome now tick) (cache, retry)).2 := by
  induction results generalizing cache retry with
  | nil => simp at h
  | cons r rs ih =>
      rcases h with ⟨r', hr', hp, hf⟩
      rcases List.mem_cons.mp hr' with rfl | hmem
      · simp only [List.foldl_cons, processOneOutcome, hf, Bool.false_eq_true, if_false]
        exact processResults_retry_mono now tick rs _ _ p (by simp [scheduleRetry, hp])
      · by_cases hs : r.success
        · simp only [List.foldl_cons, processOneOutcome, hs, if_true]
          exact ih _ _ ⟨r', hmem, hp, hf⟩
        · simp only [List.foldl_cons, processOneOutcome, hs, if_false]
          exact ih _ _ ⟨r', hmem, hp, hf⟩

lemma processResults_write_only_success (now tick : ℕ)
    (results : List MulticallResult) (cache : Cache) (retry : List Addr) (p : Addr)
    (h : (results.foldl (processOneOutcome now tick) (cache, retry)).1 p ≠ cache p) :
    ∃ r ∈ results, r.poolAddress = p ∧ r.success = true := by
  by_contra hnone
  push_neg at hnone
  exact h (processResults_cache_eq now tick results cache retry p
    (fun r hr hp => by
      by_cases hs : r.success = true
      · exact absurd hs (hnone r hr hp)
      · simpa using hs))

/-- C1.  For every batch refresh in which a pool's call fails, or in which the
whole batch fails with a transport error, the cache entry previously stored
for that pool is left unchanged and the pool is rescheduled for retry; cache
entries are only ever written by a successful per-pool result. -/
theorem failure_isolation (now tick : ℕ) (batch : List Addr) (cache : Cache)
    (retry : List Addr) (results : List MulticallResult) (p : Addr) :
    ((processBatchOutcome now tick batch cache retry .transportError).1 = cache ∧
      (p ∈ batch →
        p ∈ (processBatchOutcome now tick batch cache retry .transportError).2)) ∧
    ((∀ r ∈ results, r.poolAddress = p → r.success = false) →
      (processBatchOutcome now tick batch cache retry (.ok results)).1 p = cache p) ∧
    ((∃ r ∈ results, r.poolAddress = p ∧ r.success = false) →
      p ∈ (processBatchOutcome now tick batch cache retry (.ok results)).2) ∧
    ((processBatchOutcome now tick batch cache retry (.ok results)).1 p ≠ cache p →
      ∃ r ∈ results, r.poolAddress = p ∧ r.success = true) := by
  refine ⟨⟨rfl, fun hp => ?_⟩, fun h => ?_, fun h => ?_, fun h => ?_⟩
  · exact foldl_scheduleRetry_mem batch retry p (Or.inl hp)
  · exact processResults_cache_eq now tick results cache retry p h
  · exact processResults_retry_of_failed now tick results cache retry p h
  · exact processResults_write_only_success now tick results cache retry p h

/-- Witness for `failure_isolation` at a concrete batch: pool 2's call fails
inside an otherwise successful batch, pool 1 succeeds. -/
theorem failure_isolation_witness :
    (5 : Addr) ∈ ([5, 6] : List Addr) ∧
    (∀ r ∈ ([⟨5, false, 3, 0, 0⟩] : List MulticallResult),
      r.poolAddress = 5 → r.success = false) ∧
    ((5 : Addr) ∈
      (processBatchOutcome 0 0 [5, 6] (fun _ => none) [] .transportError).2) ∧
    (processBatchOutcome 0 0 [5, 6] (fun _ => none) []
      (.ok [⟨5, false, 3, 0, 0⟩])).1 5 = (fun _ => none : Cache) 5 := by
  refine ⟨by decide, by decide, ?_, ?_⟩
  · exact ((failure_isolation 0 0 [5, 6] (fun _ => none) []
      [⟨5, false, 3, 0, 0⟩] 5).1).2 (by decide)
  · exact (failure_isolation 0 0 [5, 6] (fun _ => none) []
      [⟨5, false, 3, 0, 0⟩] 5).2.1 (by decide)

/-! ### Block-aware result processing (refinement plan, Phase 5 and appendix)

`processMulticallResults` opens by drawing a fresh tick identifier from
`generateTickId()` (modelled as a monotonically increasing counter held in
the scheduler state), then for each result compares the returned block
number with the pool's `lastBlockSeen` using strict equality: an equal block
takes the cheap TTL-extension path, any different block recomputes the price,
writes a fresh `CacheEntry` and reassigns the volatility tier. -/

/-- One tracked pool of the alive set.  The pre-refinement trace named the
counter field `requestCount`; Phase 3 of the refinement plan turns it into
the ref-count read by the reclaimer, so it is called `refCount` here. -/
structure AlivePool where
  address : Addr
  chainId : ℕ
  tier : Tier
  nextRefresh : ℕ
  lastBlockSeen : ℕ
  lastPrice : ℚ
  refCount : ℕ
  lastRequestTime : ℕ
deriving Repr, DecidableEq

/-- Scheduler-side state: the alive set keyed by pool address, the state
cache, and the counter backing `generateTickId()`. -/
structure SchedulerState where
  aliveSet : Addr → Option AlivePool
  cache : Cache
  tickCounter : ℕ

/-- Point update of the address-keyed alive map. -/
def setAlive (s : Addr → Option AlivePool) (a : Addr) (p : AlivePool) :
    Addr → Option AlivePool :=
  fun b => if b = a then some p else s b

/-- Mirrors `priceDelta > threshold` for
`priceDelta = abs(price - lastPrice) / lastPrice` under JavaScript float
semantics: with `lastPrice = 0` the quotient is `Infinity` when the
numerator is nonzero (every threshold comparison holds) and `NaN` when it is
zero (no comparison holds). -/
def priceDeltaExceeds (price lastPrice threshold : ℚ) : Bool :=
  if lastPrice = 0 then decide (price ≠ 0)
  else decide (|price - lastPrice| / lastPrice > threshold)

/-- Tier reassignment after a recomputation (5% and 0.1% thresholds). -/
def retier (now : ℕ) (price lastPrice : ℚ) (pool : AlivePool) : AlivePool :=
  if priceDeltaExceeds price lastPrice (5 / 100) then
    { pool with tier := .high, nextRefresh := now + 5000 }
  else if priceDeltaExceeds price lastPrice (1 / 1000) then
    { pool with tier := .normal, nextRefresh := now + 10000 }
  else
    { pool with tier := .low, nextRefresh := now + 30000 }

/-- Per-result body of `processMulticallResults`.  A result whose pool is not
in the alive set is skipped (the source's `aliveSet.get` assumes presence). -/
def processOneResult (now tick : ℕ) (st : SchedulerState)
    (r : MulticallResult) : SchedulerState :=
  match st.aliveSet r.poolAddress with
  | none => st
  | some pool =>
    if r.blockNumber = pool.lastBlockSeen then
      { st with cache := st.cache.extendTtl r.poolAddress (now + 30000) }
    else
      let price := computePrice r
      let pool1 := retier now price pool.lastPrice
        { pool with lastPrice := price, lastBlockSeen := r.blockNumber }
      { st with
          cache := st.cache.setEntry r.poolAddress
            { poolAddress := r.poolAddress
              price := price
              liquidity := r.liquidity
              blockNumber := r.blockNumber
              tickId := tick
              timestamp := now
              ttl := now + 30000 }
          aliveSet := setAlive st.aliveSet r.poolAddress pool1 }

/-- Mirrors `processMulticallResults(results)`: draw one tick identifier for
this processing call, then fold the per-result body over the batch's
results. -/
def processMulticallResults (now : ℕ) (st : SchedulerState)
    (results : List MulticallResult) : SchedulerState :=
  let tick := st.tickCounter
  results.foldl (processOneResult now tick)
    { st with tickCounter := st.tickCounter + 1 }

/-- Concrete alive pool used by the C2 counterexample: last block seen 10. -/
def c2Pool : AlivePool :=
  { address := 1, chainId := 137, tier := .low, nextRefresh := 0,
    lastBlockSeen := 10, lastPrice := 5, refCount := 1, lastRequestTime := 0 }

/-- Concrete scheduler state for the C2 counterexample: pool 1 alive with a
cache entry observed at block 10. -/
def c2State : SchedulerState :=
  { aliveSet := fun a => if a = 1 then some c2Pool else none
    cache := fun a =>
      if a = 1 then
        some { poolAddress := 1, price := 5, liquidity := 0, blockNumber := 10,
               tickId := 3, timestamp := 0, ttl := 30000 }
      else none
    tickCounter := 4 }

/-- Concrete out-of-order result for the C2 counterexample: a successful call
that observed the older block 9. -/
def c2Result : MulticallResult :=
  { poolAddress := 1, success := true, blockNumber := 9, liquidity := 0,
    rawPrice := 5 }

/-- C2 counterexample.  The stored block number is 10, yet processing a
result with the older block number 9 rewrites the entry to block 9: the
block number stored in a pool's cache entry does decrease, because the
source gates the write on block inequality, not on being greater or equal. -/
theorem block_monotonicity_counterexample :
    (c2State.cache 1).map CacheEntry.blockNumber = some 10 ∧
    ((processMulticallResults 100 c2State [c2Result]).cache 1).map
      CacheEntry.blockNumber = some 9 := by
  constructor
  · rfl
  · rfl

/-- C2 as amended.  Per result: an equal block number takes the
TTL-extension path, which changes neither the stored block number nor the
stored price; any different block number (lower ones included) rewrites the
entry with the result's block number. -/
theorem block_write_discipline (now tick : ℕ) (st : SchedulerState)
    (r : MulticallResult) (pool : AlivePool)
    (hp : st.aliveSet r.poolAddress = some pool) :
    (r.blockNumber = pool.lastBlockSeen →
      ((processOneResult now tick st r).cache r.poolAddress).map
          CacheEntry.blockNumber =
        (st.cache r.poolAddress).map CacheEntry.blockNumber ∧
      ((processOneResult now tick st r).cache r.poolAddress).map
          CacheEntry.price =
        (st.cache r.poolAddress).map CacheEntry.price) ∧
    (r.blockNumber ≠ pool.lastBlockSeen →
      ((processOneResult now tick st r).cache r.poolAddress).map
          CacheEntry.blockNumber = some r.blockNumber) := by
  constructor
  · intro heq
    simp only [processOneResult, hp, heq, if_true]
    constructor
    · simp [Cache.extendTtl]
      cases st.cache r.poolAddress <;> simp
    · simp [Cache.extendTtl]
      cases st.cache r.poolAddress <;> simp
  · intro hne
    simp only [processOneResult, hp, hne, if_false]
    simp [Cache.setEntry]

/-- Witness for `block_write_discipline`: the concrete out-of-order result of
the counterexample satisfies the inequality branch. -/
theorem block_write_discipline_witness :
    c2State.aliveSet c2Result.poolAddress = some c2Pool ∧
    c2Result.blockNumber ≠ c2Pool.lastBlockSeen ∧
    ((processOneResult 100 4 c2State c2Result).cache
      c2Result.poolAddress).map CacheEntry.blockNumber = some 9 := by
  refine ⟨by decide, by decide, ?_⟩
  exact (block_write_discipline 100 4 c2State c2Result c2Pool (by decide)).2
    (by decide)

/-- Concrete scheduler state for C3: pools 1 and 2 alive, empty cache, tick
counter at 0. -/
def c3State : SchedulerState :=
  { aliveSet := fun a =>
      if a = 1 then
        some { address := 1, chainId := 137, tier := .high, nextRefresh := 0,
               lastBlockSeen := 0, lastPrice := 0, refCount := 1,
               lastRequestTime := 0 }
      else if a = 2 then
        some { address := 2, chainId := 137, tier := .high, nextRefresh := 0,
               lastBlockSeen := 0, lastPrice := 0, refCount := 1,
               lastRequestTime := 0 }
      else none
    cache := fun _ => none
    tickCounter := 0 }

/-- C3 failing input.  One scheduling cycle splits its two due pools into two
batches; each batch's results go through their own `processMulticallResults`
call, and `generateTickId()` runs at the top of each call.  The two cache
entries written in the same cycle therefore carry distinct tick identifiers
(0 and 1), contradicting both the claim and the source's own schema comment
that the tick identifier is incremented per refresh cycle. -/
theorem tick_per_batch_bug :
    (((processMulticallResults 50
        (processMulticallResults 50 c3State
          [{ poolAddress := 1, success := true, blockNumber := 5,
             liquidity := 0, rawPrice := 1 }])
        [{ poolAddress := 2, success := true, blockNumber := 5,
           liquidity := 0, rawPrice := 1 }]).cache 1).map CacheEntry.tickId =
      some 0) ∧
    (((processMulticallResults 50
        (processMulticallResults 50 c3State
          [{ poolAddress := 1, success := true, blockNumber := 5,
             liquidity := 0, rawPrice := 1 }])
        [{ poolAddress := 2, success := true, blockNumber := 5,
           liquidity := 0, rawPrice := 1 }]).cache 2).map CacheEntry.tickId =
      some 1) := by
  constructor
  · rfl
  · rfl

/-! ### Weight-aware batching (refinement plan, Phase 4)

`createBatches` greedily accumulates scheduled pools into a current batch;
when adding the next pool would push the accumulated weight over the
configured ceiling, the current batch is closed and a new one starts.  The
per-pool weight is derived from the DEX kind: a V2 `getReserves()` read
weighs 1, a V3 `slot0() + liquidity()` read weighs 2. -/

/-- The two AMM kinds handled by the engine. -/
inductive DexType where
  | v2
  | v3
deriving Repr, DecidableEq

/-- A scheduled pool as seen by the batcher, which only reads its DEX kind
(for the weight) besides its identity. -/
structure WeightedPool where
  address : Addr
  dexType : DexType
deriving Repr, DecidableEq

/-- Mirrors `poolWeight = pool.dexType === "v2" ? 1 : 2`. -/
def poolWeight (p : WeightedPool) : ℕ :=
  match p.dexType with
  | .v2 => 1
  | .v3 => 2

/-- Summed weight of a batch. -/
def batchWeight (b : List WeightedPool) : ℕ := (b.map poolWeight).sum

/-- Loop of `createBatches`, carrying the closed batches, the batch under
construction and its accumulated weight. -/
def createBatchesGo (maxWeight : ℕ) :
    List WeightedPool → List (List WeightedPool) → List WeightedPool → ℕ →
    List (List WeightedPool)
  | [], batches, currentBatch, _ =>
      if currentBatch.length > 0 then batches ++ [currentBatch] else batches
  | p :: rest, batches, currentBatch, currentWeight =>
      if currentWeight + poolWeight p > maxWeight then
        createBatchesGo maxWeight rest (batches ++ [currentBatch]) [p]
          (poolWeight p)
      else
        createBatchesGo maxWeight rest batches (currentBatch ++ [p])
          (currentWeight + poolWeight p)

/-- Mirrors `createBatches(pools)` with the configured weight ceiling. -/
def createBatches (maxWeight : ℕ) (pools : List WeightedPool) :
    List (List WeightedPool) :=
  createBatchesGo maxWeight pools [] [] 0

lemma createBatchesGo_flatten (maxWeight : ℕ) (rest : List WeightedPool)
    (batches : List (List WeightedPool)) (cur : List WeightedPool) (w : ℕ) :
    (createBatchesGo maxWeight rest batches cur w).flatten =
      batches.flatten ++ cur ++ rest := by
  induction rest generalizing batches cur w with
  | nil =>
      by_cases hc : cur.length > 0
      · simp [createBatchesGo, hc]
      · have : cur = [] := List.length_eq_zero.mp (Nat.eq_zero_of_not_pos hc)
        simp [createBatchesGo, hc, this]
  | cons p rest ih =>
      by_cases ho : w + poolWeight p > maxWeight
      · simp only [createBatchesGo, ho, if_true]
        rw [ih]
        simp
      · simp only [createBatchesGo, ho, if_false]
        rw [ih]
        simp

lemma createBatchesGo_weight_bound (maxWeight : ℕ) (rest : List WeightedPool)
    (batches : List (List WeightedPool)) (cur : List WeightedPool) (w : ℕ)
    (hrest : ∀ p ∈ rest, poolWeight p ≤ maxWeight)
    (hcur : batchWeight cur = w) (hw : w ≤ maxWeight)
    (hb : ∀ b ∈ batches, batchWeight b ≤ maxWeight) :
    ∀ b ∈ createBatchesGo maxWeight rest batches cur w,
      batchWeight b ≤ maxWeight := by
  induction rest generalizing batches cur w with
  | nil =>
      intro b hbmem
      by_cases hc : cur.length > 0
      · simp only [createBatchesGo, hc, if_true] at hbmem
        rcases List.mem_append.mp hbmem with h | h
        · exact hb b h
        · simp only [List.mem_singleton] at h
          subst h
          exact hcur ▸ hw
      · simp only [createBatchesGo, hc, if_false] at hbmem
        exact hb b hbmem
  | cons p rest ih =>
      intro b hbmem
      by_cases ho : w + poolWeight p > maxWeight
      · simp only [createBatchesGo, ho, if_true] at hbmem
        refine ih _ _ _ (fun q hq => hrest q (by simp [hq])) (by simp [batchWeight])
          (hrest p (by simp)) ?_ b hbmem
        intro b' hb'
        rcases List.mem_append.mp hb' with h | h
        · exact hb b' h
        · simp only [List.mem_singleton] at h
          subst h
          exact hcur ▸ hw
      · simp only [createBatchesGo, ho, if_false] at hbmem
        have hcur' : batchWeight (cur ++ [p]) = w + poolWeight p := by
          simp only [batchWeight] at hcur ⊢
          simp [hcur]
        exact ih _ _ _ (fun q hq => hrest q (by simp [hq])) hcur'
          (Nat.le_of_not_lt ho) hb b hbmem

lemma createBatchesGo_batches_mono (maxWeight : ℕ) (rest : List WeightedPool)
    (batches : List (List WeightedPool)) (cur : List WeightedPool) (w : ℕ)
    (b : List WeightedPool) (hb : b ∈ batches) :
    b ∈ createBatchesGo maxWeight rest batches cur w := by
  induction rest generalizing batches cur w with
  | nil =>
      by_cases hc : cur.length > 0
      · simp [createBatchesGo, hc, hb]
      · simpa [createBatchesGo, hc] using hb
  | cons p rest ih =>
      by_cases ho : w + poolWeight p > maxWeight
      · simp only [createBatchesGo, ho, if_true]
        exact ih _ _ _ (by simp [hb])
      · simp only [createBatchesGo, ho, if_false]
        exact ih _ _ _ hb

lemma createBatchesGo_own_batch_of_cur (maxWeight : ℕ) (rest : List WeightedPool)
    (batches : List (List WeightedPool)) (q : WeightedPool) (w : ℕ)
    (hw : maxWeight < w) :
    [q] ∈ createBatchesGo maxWeight rest batches [q] w := by
  cases rest with
  | nil => simp [createBatchesGo]
  | cons p rest =>
      have ho : w + poolWeight p > maxWeight :=
        lt_of_lt_of_le hw (Nat.le_add_right _ _)
      simp only [createBatchesGo, ho, if_true]
      exact createBatchesGo_batches_mono _ _ _ _ _ _ (by simp)

lemma createBatchesGo_own_batch (maxWeight : ℕ) (q : WeightedPool)
    (hw : maxWeight < poolWeight q) :
    ∀ (rest : List WeightedPool) (batches : List (List WeightedPool))
      (cur : List WeightedPool) (w : ℕ), q ∈ rest →
      [q] ∈ createBatchesGo maxWeight rest batches cur w := by
  intro rest
  induction rest with
  | nil =>
      intro batches cur w hq
      simp at hq
  | cons p rest ih =>
      intro batches cur w hq
      rcases List.mem_cons.mp hq with rfl | hq
      · have ho : w + poolWeight q > maxWeight :=
          lt_of_lt_of_le hw (Nat.le_add_left _ _)
        simp only [createBatchesGo, ho, if_true]
        exact createBatchesGo_own_batch_of_cur _ _ _ _ _ hw
      · by_cases ho : w + poolWeight p > maxWeight
        · simp only [createBatchesGo, ho, if_true]
          exact ih _ _ _ hq
        · simp only [createBatchesGo, ho, if_false]
          exact ih _ _ _ hq

/-- C4.  `createBatches` partitions its input in order (flattening the
batches gives back the due list, so no pool is dropped); when every
individual weight fits under the ceiling, every produced batch's summed
weight is at most the ceiling; and a pool whose weight alone exceeds the
ceiling still ends up in a batch of its own. -/
theorem createBatches_correct (maxWeight : ℕ) (pools : List WeightedPool) :
    (createBatches maxWeight pools).flatten = pools ∧
    ((∀ p ∈ pools, poolWeight p ≤ maxWeight) →
      ∀ b ∈ createBatches maxWeight pools, batchWeight b ≤ maxWeight) ∧
    (∀ p ∈ pools, maxWeight < poolWeight p →
      [p] ∈ createBatches maxWeight pools) := by
  refine ⟨?_, fun h => ?_, fun p hp hw => ?_⟩
  · simpa using createBatchesGo_flatten maxWeight pools [] [] 0
  · exact createBatchesGo_weight_bound maxWeight pools [] [] 0 h rfl
      (Nat.zero_le _) (by simp)
  · exact createBatchesGo_own_batch maxWeight p hw pools [] [] 0 hp

/-- Witness for `createBatches_correct`: three pools under ceiling 2 satisfy
the weight bound; under ceiling 1 the weight-2 V3 pool still forms its own
batch. -/
theorem createBatches_correct_witness :
    ((∀ p ∈ ([⟨1, .v2⟩, ⟨2, .v3⟩, ⟨3, .v2⟩] : List WeightedPool),
        poolWeight p ≤ 2) ∧
      ∀ b ∈ createBatches 2 [⟨1, .v2⟩, ⟨2, .v3⟩, ⟨3, .v2⟩],
        batchWeight b ≤ 2) ∧
    ((⟨2, .v3⟩ : WeightedPool) ∈
        ([⟨1, .v2⟩, ⟨2, .v3⟩, ⟨3, .v2⟩] : List WeightedPool) ∧
      1 < poolWeight ⟨2, .v3⟩ ∧
      [(⟨2, .v3⟩ : WeightedPool)] ∈
        createBatches 1 [⟨1, .v2⟩, ⟨2, .v3⟩, ⟨3, .v2⟩]) := by
  refine ⟨⟨by decide, ?_⟩, by decide, by decide, ?_⟩
  · exact (createBatches_correct 2 [⟨1, .v2⟩, ⟨2, .v3⟩, ⟨3, .v2⟩]).2.1
      (by decide)
  · exact (createBatches_correct 1 [⟨1, .v2⟩, ⟨2, .v3⟩, ⟨3, .v2⟩]).2.2
      ⟨2, .v3⟩ (by decide) (by decide)

/-! ### Interest tracker (`PoolController.handleTokenInterest` as quoted in
the scenario trace, plus the Phase 3 ref-counting increment/decrement)

The alive set is keyed by the composite key built from the chain id and the
pool address; a registration for an already-tracked pool bumps its ref-count
and refreshes its liveness timestamp, a registration for a new pool inserts
it at tier `high`, due in 5s, with ref-count 1.  The release path is Phase
3's `decrementRefCount`, which clamps at zero.  The alive set is modelled as
a list of entries (rather than a map), so that the no-duplicate-entry
property is a real statement about the operations. -/

/-- One pre-indexed pricing-route hop attached to a token by the cold path:
the pool to cross and the base token reached. -/
structure Route where
  pool : Addr
  base : Addr
deriving Repr, DecidableEq

/-- A token as handed to the hot path: its address and its pre-attached
pricing pools. -/
structure TokenWithPools where
  address : Addr
  pricingPools : List Route
deriving Repr, DecidableEq

/-- Composite key of a tracked pool, mirroring the string key built from
the chain id and the pool address. -/
def poolKeyOf (p : AlivePool) : PoolKey := (p.chainId, p.address)

/-- Entry created for a pool entering the alive set: tier `high`, next
refresh 5s out, ref-count 1. -/
def newAlivePool (now chainId : ℕ) (a : Addr) : AlivePool :=
  { address := a, chainId := chainId, tier := .high, nextRefresh := now + 5000,
    lastBlockSeen := 0, lastPrice := 0, refCount := 1, lastRequestTime := now }

/-- One pool registration inside `handleTokenInterest`: if the composite key
is already tracked its entry is updated in place, otherwise a fresh entry
is appended. -/
def registerPoolInterest (now chainId : ℕ) (a : Addr) (s : List AlivePool) :
    List AlivePool :=
  if s.any (fun e => poolKeyOf e = (chainId, a)) then
    s.map (fun e =>
      if poolKeyOf e = (chainId, a) then
        { e with lastRequestTime := now, refCount := e.refCount + 1 }
      else e)
  else s ++ [newAlivePool now chainId a]

/-- Mirrors `handleTokenInterest(tokens, chainId)`: one registration per
`(token, route)` pair, in iteration order. -/
def handleTokenInterest (now : ℕ) (tokens : List TokenWithPools)
    (chainId : ℕ) (s : List AlivePool) : List AlivePool :=
  ((tokens.map (fun t => t.pricingPools.map (fun route => route.pool))).flatten).foldl
    (fun s a => registerPoolInterest now chainId a s) s

/-- Mirrors Phase 3's `decrementRefCount`:
`pool.refCount = Math.max(0, pool.refCount - 1)` (truncated subtraction). -/
def decrementRefCount (chainId : ℕ) (a : Addr) (s : List AlivePool) :
    List AlivePool :=
  s.map (fun e =>
    if poolKeyOf e = (chainId, a) then { e with refCount := e.refCount - 1 }
    else e)

/-- One call into the interest tracker: either a `handleTokenInterest`
registration or a per-pool ref-count release. -/
inductive TrackerCall where
  | interest (now : ℕ) (tokens : List TokenWithPools)
  | release (a : Addr)
deriving Repr

/-- Apply one tracker call to the alive set (chain id fixed). -/
def applyTrackerCall (chainId : ℕ) (s : List AlivePool) :
    TrackerCall → List AlivePool
  | .interest now tokens => handleTokenInterest now tokens chainId s
  | .release a => decrementRefCount chainId a s

/-- Run a sequence of tracker calls from the empty alive set. -/
def runTracker (chainId : ℕ) (calls : List TrackerCall) : List AlivePool :=
  calls.foldl (applyTrackerCall chainId) []

/-- Number of `(token, route)` references to pool `a` made by one call. -/
def refsOfCall (a : Addr) : TrackerCall → ℕ
  | .interest _ tokens =>
      ((tokens.map (fun t => t.pricingPools.map (fun route => route.pool))).flatten).countP
        (fun x => x = a)
  | .release _ => 0

/-- Number of releases of pool `a` made by one call. -/
def relsOfCall (a : Addr) : TrackerCall → ℕ
  | .release b => if b = a then 1 else 0
  | .interest _ _ => 0

/-- Total registrations referencing pool `a` across a call sequence. -/
def regCount (a : Addr) (calls : List TrackerCall) : ℕ :=
  (calls.map (refsOfCall a)).sum

/-- Total releases of pool `a` across a call sequence. -/
def relCount (a : Addr) (calls : List TrackerCall) : ℕ :=
  (calls.map (relsOfCall a)).sum

/-- Number of alive-set entries carrying the composite key `k`. -/
def countKey (k : PoolKey) (s : List AlivePool) : ℕ :=
  s.countP (fun e => poolKeyOf e = k)

/-- Tracker invariant for one key: no entry while unregistered, exactly one
entry once registered, and its ref-count is registrations minus releases. -/
def TrackerInv (k : PoolKey) (s : List AlivePool) (r l : ℕ) : Prop :=
  (r = 0 → countKey k s = 0) ∧
  (0 < r → countKey k s = 1) ∧
  (∀ e ∈ s, poolKeyOf e = k → e.refCount = r - l)

lemma countKey_append (k : PoolKey) (s t : List AlivePool) :
    countKey k (s ++ t) = countKey k s + countKey k t :=
  List.countP_append _ s t

lemma countKey_map_keep (k : PoolKey) (s : List AlivePool)
    (f : AlivePool → AlivePool) (hf : ∀ e, poolKeyOf (f e) = poolKeyOf e) :
    countKey k (s.map f) = countKey k s := by
  rw [countKey, List.countP_map]
  refine List.countP_congr (fun e _ => ?_)
  simp [Function.comp, hf e]

lemma register_same (now chainId : ℕ) (a : Addr) (s : List AlivePool)
    (r l : ℕ) (hl : l ≤ r) (hInv : TrackerInv (chainId, a) s r l) :
    TrackerInv (chainId, a) (registerPoolInterest now chainId a s) (r + 1) l := by
  obtain ⟨h0, h1, hrc⟩ := hInv
  by_cases hany : s.any (fun e => poolKeyOf e = (chainId, a))
  · have hr : 0 < r := by
      rcases Nat.eq_zero_or_pos r with rfl | hr
      · obtain ⟨e, he, hk⟩ := List.any_eq_true.mp hany
        have := List.countP_eq_zero.mp (h0 rfl) e he
        exact absurd hk this
      · exact hr
    refine ⟨fun h => by omega, fun _ => ?_, fun e he hk => ?_⟩
    · rw [registerPoolInterest, if_pos hany, countKey_map_keep]
      · exact h1 hr
      · intro e
        by_cases hk : poolKeyOf e = (chainId, a)
        · rw [if_pos hk]
          rfl
        · rw [if_neg hk]
    · rw [registerPoolInterest, if_pos hany] at he
      obtain ⟨e', he', hfe⟩ := List.mem_map.mp he
      by_cases hk' : poolKeyOf e' = (chainId, a)
      · rw [if_pos hk'] at hfe
        subst hfe
        have hrc' := hrc e' he' hk'
        show e'.refCount + 1 = r + 1 - l
        omega
      · rw [if_neg hk'] at hfe
        subst hfe
        exact absurd hk hk'
  · have hz : countKey (chainId, a) s = 0 := by
      rw [countKey, List.countP_eq_zero]
      intro e he
      simpa using (List.any_eq_false.mp (Bool.eq_false_iff.mpr hany)) e he
    have hr0 : r = 0 := by
      by_contra hr
      have := h1 (Nat.pos_of_ne_zero hr)
      omega
    have hl0 : l = 0 := by omega
    subst hr0 hl0
    refine ⟨fun h => by omega, fun _ => ?_, fun e he hk => ?_⟩
    · rw [registerPoolInterest, if_neg hany, countKey_append, hz]
      simp [countKey, newAlivePool, poolKeyOf]
    · rw [registerPoolInterest, if_neg hany] at he
      rcases List.mem_append.mp he with hmem | hmem
      · have := List.countP_eq_zero.mp hz e hmem
        exact absurd (by simpa using hk) this
      · simp only [List.mem_singleton] at hmem
        subst hmem
        simp [newAlivePool]

lemma register_other (now chainId : ℕ) (a : Addr) (k : PoolKey)
    (hk : k ≠ (chainId, a)) (s : List AlivePool) (r l : ℕ)
    (hInv : TrackerInv k s r l) :
    TrackerInv k (registerPoolInterest now chainId a s) r l := by
  obtain ⟨h0, h1, hrc⟩ := hInv
  by_cases hany : s.any (fun e => poolKeyOf e = (chainId, a))
  · have hkeep : ∀ e : AlivePool,
        poolKeyOf (if poolKeyOf e = (chainId, a) then
          { e with lastRequestTime := now, refCount := e.refCount + 1 }
        else e) = poolKeyOf e := by
      intro e
      by_cases h : poolKeyOf e = (chainId, a)
      · rw [if_pos h]
        rfl
      · rw [if_neg h]
    refine ⟨fun h => ?_, fun h => ?_, fun e he hke => ?_⟩
    · rw [registerPoolInterest, if_pos hany, countKey_map_keep _ _ _ hkeep]
      exact h0 h
    · rw [registerPoolInterest, if_pos hany, countKey_map_keep _ _ _ hkeep]
      exact h1 h
    · rw [registerPoolInterest, if_pos hany] at he
      obtain ⟨e', he', hfe⟩ := List.mem_map.mp he
      by_cases hk' : poolKeyOf e' = (chainId, a)
      · rw [if_pos hk'] at hfe
        subst hfe
        have hke' : poolKeyOf e' = k := hke
        exact absurd (hke'.symm.trans hk') hk
      · rw [if_neg hk'] at hfe
        subst hfe
        exact hrc e' he' hke
  · refine ⟨fun h => ?_, fun h => ?_, fun e he hke => ?_⟩
    · rw [registerPoolInterest, if_neg hany, countKey_append, h0 h]
      simp [countKey, newAlivePool, poolKeyOf, Ne.symm hk]
    · rw [registerPoolInterest, if_neg hany, countKey_append, h1 h]
      simp [countKey, newAlivePool, poolKeyOf, Ne.symm hk]
    · rw [registerPoolInterest, if_neg hany] at he
      rcases List.mem_append.mp he with hmem | hmem
      · exact hrc e hmem hke
      · simp only [List.mem_singleton] at hmem
        subst hmem
        exact absurd hke (by simp [newAlivePool, poolKeyOf, Ne.symm hk])

lemma release_same (chainId : ℕ) (a : Addr) (s : List AlivePool) (r l : ℕ)
    (hInv : TrackerInv (chainId, a) s r l) :
    TrackerInv (chainId, a) (decrementRefCount chainId a s) r (l + 1) := by
  obtain ⟨h0, h1, hrc⟩ := hInv
  have hkeep : ∀ e : AlivePool,
      poolKeyOf (if poolKeyOf e = (chainId, a) then
        { e with refCount := e.refCount - 1 } else e) = poolKeyOf e := by
    intro e
    by_cases h : poolKeyOf e = (chainId, a)
    · rw [if_pos h]
      rfl
    · rw [if_neg h]
  refine ⟨fun h => ?_, fun h => ?_, fun e he hke => ?_⟩
  · rw [decrementRefCount, countKey_map_keep _ _ _ hkeep]
    exact h0 h
  · rw [decrementRefCount, countKey_map_keep _ _ _ hkeep]
    exact h1 h
  · rw [decrementRefCount] at he
    obtain ⟨e', he', hfe⟩ := List.mem_map.mp he
    by_cases hk' : poolKeyOf e' = (chainId, a)
    · rw [if_pos hk'] at hfe
      subst hfe
      have hrc' := hrc e' he' hk'
      show e'.refCount - 1 = r - (l + 1)
      omega
    · rw [if_neg hk'] at hfe
      subst hfe
      exact absurd hke hk'

lemma release_other (chainId : ℕ) (a : Addr) (k : PoolKey)
    (hk : k ≠ (chainId, a)) (s : List AlivePool) (r l : ℕ)
    (hInv : TrackerInv k s r l) :
    TrackerInv k (decrementRefCount chainId a s) r l := by
  obtain ⟨h0, h1, hrc⟩ := hInv
  have hkeep : ∀ e : AlivePool,
      poolKeyOf (if poolKeyOf e = (chainId, a) then
        { e with refCount := e.refCount - 1 } else e) = poolKeyOf e := by
    intro e
    by_cases h : poolKeyOf e = (chainId, a)
    · rw [if_pos h]
      rfl
    · rw [if_neg h]
  refine ⟨fun h => ?_, fun h => ?_, fun e he hke => ?_⟩
  · rw [decrementRefCount, countKey_map_keep _ _ _ hkeep]
    exact h0 h
  · rw [decrementRefCount, countKey_map_keep _ _ _ hkeep]
    exact h1 h
  · rw [decrementRefCount] at he
    obtain ⟨e', he', hfe⟩ := List.mem_map.mp he
    by_cases hk' : poolKeyOf e' = (chainId, a)
    · rw [if_pos hk'] at hfe
      subst hfe
      have hke' : poolKeyOf e' = k := hke
      exact absurd (hke'.symm.trans hk') hk
    · rw [if_neg hk'] at hfe
      subst hfe
      exact hrc e' he' hke

lemma register_fold_inv (now chainId : ℕ) (a : Addr) (addrs : List Addr)
    (s : List AlivePool) (r l : ℕ) (hl : l ≤ r)
    (hInv : TrackerInv (chainId, a) s r l) :
    TrackerInv (chainId, a)
      (addrs.foldl (fun s x => registerPoolInterest now chainId x s) s)
      (r + addrs.countP (fun x => x = a)) l := by
  induction addrs generalizing s r with
  | nil => simpa using hInv
  | cons x addrs ih =>
      by_cases hx : x = a
      · subst hx
        have hstep := register_same now chainId x s r l hl hInv
        have hrec := ih _ _ (Nat.le_succ_of_le hl) hstep
        have hcnt : (x :: addrs).countP (fun y => y = x) =
            addrs.countP (fun y => y = x) + 1 := by
          simp [List.countP_cons]
        rw [List.foldl_cons, hcnt,
          show r + (addrs.countP (fun y => decide (y = x)) + 1) =
            r + 1 + addrs.countP (fun y => decide (y = x)) from by omega]
        exact hrec
      · have hne : ((chainId, a) : PoolKey) ≠ (chainId, x) := by
          simp only [ne_eq, Prod.mk.injEq, not_and]
          intro _ h
          exact hx h.symm
        have hstep := register_other now chainId x (chainId, a) hne s r l hInv
        have hrec := ih _ _ hl hstep
        have hcnt : (x :: addrs).countP (fun y => y = a) =
            addrs.countP (fun y => y = a) := by
          simp [List.countP_cons, hx]
        rw [List.foldl_cons, hcnt]
        exact hrec

lemma runTracker_inv (chainId : ℕ) (a : Addr) :
    ∀ calls : List TrackerCall,
      (∀ n, relCount a (calls.take n) ≤ regCount a (calls.take n)) →
      TrackerInv (chainId, a) (runTracker chainId calls)
        (regCount a calls) (relCount a calls) := by
  intro calls
  induction calls using List.reverseRecOn with
  | nil =>
      intro _
      exact ⟨fun _ => rfl, fun h => absurd h (by simp [regCount]),
        by simp [runTracker]⟩
  | append_singleton calls c ih =>
      intro h
      have hpre : ∀ n, relCount a (calls.take n) ≤ regCount a (calls.take n) := by
        intro n
        rcases le_or_lt n calls.length with hn | hn
        · have := h n
          rwa [List.take_append_of_le_length hn] at this
        · rw [List.take_of_length_le (Nat.le_of_lt hn)]
          have := h calls.length
          rwa [List.take_append_of_le_length (le_refl _), List.take_length]
            at this
      have hlr : relCount a calls ≤ regCount a calls := by
        have := hpre calls.length
        rwa [List.take_length] at this
      have hInv := ih hpre
      have hrun : runTracker chainId (calls ++ [c]) =
          applyTrackerCall chainId (runTracker chainId calls) c := by
        rw [runTracker, List.foldl_append]
        rfl
      have hreg : regCount a (calls ++ [c]) = regCount a calls + refsOfCall a c := by
        simp [regCount]
      have hrel : relCount a (calls ++ [c]) = relCount a calls + relsOfCall a c := by
        simp [relCount]
      rw [hrun, hreg, hrel]
      cases c with
      | interest now tokens =>
          have := register_fold_inv now chainId a
            ((tokens.map (fun t => t.pricingPools.map (fun route => route.pool))).flatten)
            (runTracker chainId calls) (regCount a calls) (relCount a calls)
            hlr hInv
          simpa [applyTrackerCall, handleTokenInterest, refsOfCall, relsOfCall]
            using this
      | release b =>
          by_cases hb : b = a
          · subst hb
            have := release_same chainId b (runTracker chainId calls)
              (regCount b calls) (relCount b calls) hInv
            simpa [applyTrackerCall, refsOfCall, relsOfCall] using this
          · have := release_other chainId b (chainId, a)
              (by simp [Ne.symm hb]) (runTracker chainId calls)
              (regCount a calls) (relCount a calls) hInv
            simpa [applyTrackerCall, refsOfCall, relsOfCall, hb] using this

/-- C5.  For every sequence of interest and release calls in which no pool
is released more often than it has been registered (prefix-wise), the alive
set holds at most one entry per composite key, exactly one once the pool has
been referenced at all, and that entry's ref-count equals the number of
registrations referencing the pool minus the number of releases. -/
theorem interest_tracker_refcount (chainId : ℕ) (calls : List TrackerCall)
    (a : Addr)
    (h : ∀ n, relCount a (calls.take n) ≤ regCount a (calls.take n)) :
    countKey (chainId, a) (runTracker chainId calls) ≤ 1 ∧
    (0 < regCount a calls →
      countKey (chainId, a) (runTracker chainId calls) = 1) ∧
    (∀ e ∈ runTracker chainId calls, poolKeyOf e = (chainId, a) →
      e.refCount = regCount a calls - relCount a calls) := by
  obtain ⟨h0, h1, hrc⟩ := runTracker_inv chainId a calls h
  refine ⟨?_, h1, hrc⟩
  rcases Nat.eq_zero_or_pos (regCount a calls) with hz | hp
  · rw [h0 hz]
    omega
  · rw [h1 hp]

/-- Witness for `interest_tracker_refcount`: two tokens sharing pool 7
registered in one call, a second registration call, then one release, on
chain 137 — one tracked entry with ref-count 2. -/
theorem interest_tracker_refcount_witness :
    (∀ n, relCount 7
        (([.interest 0 [⟨20, [⟨7, 9⟩]⟩, ⟨21, [⟨7, 9⟩]⟩],
           .interest 5 [⟨20, [⟨7, 9⟩]⟩],
           .release 7] : List TrackerCall).take n) ≤
      regCount 7
        (([.interest 0 [⟨20, [⟨7, 9⟩]⟩, ⟨21, [⟨7, 9⟩]⟩],
           .interest 5 [⟨20, [⟨7, 9⟩]⟩],
           .release 7] : List TrackerCall).take n)) ∧
    countKey (137, 7)
      (runTracker 137
        [.interest 0 [⟨20, [⟨7, 9⟩]⟩, ⟨21, [⟨7, 9⟩]⟩],
         .interest 5 [⟨20, [⟨7, 9⟩]⟩],
         .release 7]) = 1 ∧
    (∀ e ∈ runTracker 137
        [.interest 0 [⟨20, [⟨7, 9⟩]⟩, ⟨21, [⟨7, 9⟩]⟩],
         .interest 5 [⟨20, [⟨7, 9⟩]⟩],
         .release 7],
      poolKeyOf e = (137, 7) → e.refCount = 2) := by
  have hpre : ∀ n, relCount 7
      (([.interest 0 [⟨20, [⟨7, 9⟩]⟩, ⟨21, [⟨7, 9⟩]⟩],
         .interest 5 [⟨20, [⟨7, 9⟩]⟩],
         .release 7] : List TrackerCall).take n) ≤
      regCount 7
        (([.interest 0 [⟨20, [⟨7, 9⟩]⟩, ⟨21, [⟨7, 9⟩]⟩],
           .interest 5 [⟨20, [⟨7, 9⟩]⟩],
           .release 7] : List TrackerCall).take n) := by
    intro n
    match n with
    | 0 => decide
    | 1 => decide
    | 2 => decide
    | m + 3 =>
        rw [List.take_of_length_le (by simp)]
        decide
  obtain ⟨hle, hone, hrc⟩ := interest_tracker_refcount 137
    [.interest 0 [⟨20, [⟨7, 9⟩]⟩, ⟨21, [⟨7, 9⟩]⟩],
     .interest 5 [⟨20, [⟨7, 9⟩]⟩],
     .release 7] 7 hpre
  refine ⟨hpre, hone (by decide), fun e he hk => ?_⟩
  have := hrc e he hk
  simpa using this

/-! ### Pool eviction sweep (`GCManager.cleanupPools` in `RequestBatcher.ts`)

Step 1 walks the alive set: a pool seen with ref-count 0 and not yet in the
`poolsWithZeroRefCount` map gets the current time recorded as its grace
start; a pool seen with a positive ref-count is removed from the map if
present (eviction cancelled).  Step 2 collects every tracked key whose grace
has elapsed (`now - zeroRefCountTime >= POOL_GRACE_PERIOD_MS`), removes each
such pool via `poolController.removePool` and drops it from the map.  The
grace map is modelled as an association list, like the alive set. -/

/-- The `poolsWithZeroRefCount` map: composite key to grace-start time. -/
abbrev GraceMap := List (PoolKey × ℕ)

/-- Mirrors `poolsWithZeroRefCount.has(poolKey)`. -/
def graceHas (g : GraceMap) (k : PoolKey) : Bool := g.any (fun kt => kt.1 = k)

/-- Mirrors `poolsWithZeroRefCount.get(poolKey)`. -/
def graceLookup (g : GraceMap) (k : PoolKey) : Option ℕ :=
  (g.find? (fun kt => kt.1 = k)).map (fun kt => kt.2)

/-- Mirrors `poolsWithZeroRefCount.delete(poolKey)`. -/
def graceDelete (g : GraceMap) (k : PoolKey) : GraceMap :=
  g.filter (fun kt => ¬ kt.1 = k)

/-- Combined reclaimer-visible state: the controller's alive set, the shared
state cache, and the reclaimer's own grace tracking map. -/
structure GCState where
  aliveSet : List AlivePool
  stateCache : Cache
  graceMap : GraceMap

/-- Step-1 body of `cleanupPools` for one alive pool: start grace tracking on
a first-seen zero ref-count, cancel it when the pool was revived. -/
def gcTrackPool (now : ℕ) (g : GraceMap) (pool : AlivePool) : GraceMap :=
  if pool.refCount = 0 then
    if graceHas g (poolKeyOf pool) then g else g ++ [(poolKeyOf pool, now)]
  else
    if graceHas g (poolKeyOf pool) then graceDelete g (poolKeyOf pool) else g

/-- Modelled from the spec: `PoolController.removePool` is called by the
sweep but its implementation is not under `src/`; per the spec's reclaimer
contract ("remove the PoolRef and its CacheEntry entirely") it drops the
tracked pool from the alive set and deletes its state-cache entry. -/
def removePool (k : PoolKey) (st : GCState) : GCState :=
  { aliveSet := st.aliveSet.filter (fun e => ¬ poolKeyOf e = k)
    stateCache := fun a => if a = k.2 then none else st.stateCache a
    graceMap := st.graceMap }

/-- Step 1 of `cleanupPools`: walk the alive set, refreshing the grace map. -/
def cleanupStepOne (now : ℕ) (st : GCState) : GraceMap :=
  st.aliveSet.foldl (gcTrackPool now) st.graceMap

/-- Step 2's `poolKeysToRemove`: every tracked key whose grace elapsed, i.e.
`now - zeroRefCountTime >= POOL_GRACE_PERIOD_MS`. -/
def expiredKeys (gracePeriod now : ℕ) (g : GraceMap) : List PoolKey :=
  (g.filter (fun kt => gracePeriod ≤ now - kt.2)).map (fun kt => kt.1)

/-- Mirrors `GCManager.cleanupPools`: step 1 refreshes the grace map over the
alive set, step 2 removes every pool whose grace period has elapsed and
drops it from the map. -/
def cleanupPools (gracePeriod now : ℕ) (st : GCState) : GCState :=
  let g1 := cleanupStepOne now st
  let toRemove := expiredKeys gracePeriod now g1
  let st1 := toRemove.foldl (fun s k => removePool k s)
    { st with graceMap := g1 }
  { st1 with graceMap := g1.filter (fun kt => ¬ kt.1 ∈ toRemove) }

/-- The grace-map entries carrying key `k`. -/
def kGraceEntries (g : GraceMap) (k : PoolKey) : GraceMap :=
  g.filter (fun kt => kt.1 = k)

lemma graceLookup_eq_head (g : GraceMap) (k : PoolKey) :
    graceLookup g k = (kGraceEntries g k).head?.map (fun kt => kt.2) := by
  induction g with
  | nil => rfl
  | cons kt g ih =>
      by_cases h : kt.1 = k
      · rw [graceLookup, List.find?_cons_of_pos _ (by simp [h]),
          kGraceEntries, List.filter_cons, if_pos (by simp [h])]
        simp
      · rw [graceLookup, List.find?_cons_of_neg _ (by simp [h]),
          kGraceEntries, List.filter_cons, if_neg (by simp [h])]
        exact ih

lemma graceHas_iff (g : GraceMap) (k : PoolKey) :
    graceHas g k = true ↔ kGraceEntries g k ≠ [] := by
  rw [graceHas, List.any_eq_true]
  constructor
  · rintro ⟨kt, hmem, hk⟩ hnil
    have : kt ∈ kGraceEntries g k := List.mem_filter.mpr ⟨hmem, hk⟩
    simp [hnil] at this
  · intro hne
    rcases List.exists_mem_of_ne_nil _ hne with ⟨kt, hkt⟩
    obtain ⟨hmem, hk⟩ := List.mem_filter.mp hkt
    exact ⟨kt, hmem, hk⟩

lemma kGraceEntries_append (g1 g2 : GraceMap) (k : PoolKey) :
    kGraceEntries (g1 ++ g2) k = kGraceEntries g1 k ++ kGraceEntries g2 k :=
  List.filter_append _ _

lemma kGraceEntries_delete_other (g : GraceMap) (k k2 : PoolKey) (hk : k2 ≠ k) :
    kGraceEntries (graceDelete g k2) k = kGraceEntries g k := by
  rw [kGraceEntries, graceDelete, List.filter_filter]
  refine List.filter_congr (fun kt _ => ?_)
  by_cases h : kt.1 = k
  · simp [h, Ne.symm hk]
  · simp [h]

lemma gcTrackPool_other (now : ℕ) (g : GraceMap) (pool : AlivePool)
    (k : PoolKey) (hk : poolKeyOf pool ≠ k) :
    kGraceEntries (gcTrackPool now g pool) k = kGraceEntries g k := by
  rw [gcTrackPool]
  by_cases h0 : pool.refCount = 0
  · rw [if_pos h0]
    by_cases hh : graceHas g (poolKeyOf pool)
    · rw [if_pos hh]
    · rw [if_neg hh, kGraceEntries_append]
      simp [kGraceEntries, hk]
  · rw [if_neg h0]
    by_cases hh : graceHas g (poolKeyOf pool)
    · rw [if_pos hh]
      exact kGraceEntries_delete_other g k (poolKeyOf pool) hk
    · rw [if_neg hh]

lemma gcTrack_fold_other (now : ℕ) (pools : List AlivePool) (g : GraceMap)
    (k : PoolKey) (h : ∀ p ∈ pools, poolKeyOf p ≠ k) :
    kGraceEntries (pools.foldl (gcTrackPool now) g) k = kGraceEntries g k := by
  induction pools generalizing g with
  | nil => rfl
  | cons p pools ih =>
      rw [List.foldl_cons, ih _ (fun q hq => h q (by simp [hq])),
        gcTrackPool_other now g p k (h p (by simp))]

lemma gcTrackPool_own (now : ℕ) (g : GraceMap) (pool : AlivePool) :
    kGraceEntries (gcTrackPool now g pool) (poolKeyOf pool) =
      if pool.refCount = 0 then
        (if kGraceEntries g (poolKeyOf pool) = [] then [(poolKeyOf pool, now)]
         else kGraceEntries g (poolKeyOf pool))
      else [] := by
  rw [gcTrackPool]
  by_cases h0 : pool.refCount = 0
  · rw [if_pos h0, if_pos h0]
    by_cases hh : graceHas g (poolKeyOf pool)
    · rw [if_pos hh, if_neg ((graceHas_iff g (poolKeyOf pool)).mp hh)]
    · have hnil : kGraceEntries g (poolKeyOf pool) = [] := by
        by_contra hne
        exact hh ((graceHas_iff g (poolKeyOf pool)).mpr hne)
      rw [if_neg hh, if_pos hnil, kGraceEntries_append, hnil]
      simp [kGraceEntries]
  · rw [if_neg h0, if_neg h0]
    by_cases hh : graceHas g (poolKeyOf pool)
    · rw [if_pos hh, kGraceEntries, graceDelete, List.filter_filter]
      rw [List.filter_eq_nil_iff]
      intro kt _
      by_cases h : kt.1 = poolKeyOf pool <;> simp [h]
    · have hnil : kGraceEntries g (poolKeyOf pool) = [] := by
        by_contra hne
        exact hh ((graceHas_iff g (poolKeyOf pool)).mpr hne)
      rw [if_neg hh, hnil]

lemma removePool_fold_mem (ks : List PoolKey) (st : GCState) (e : AlivePool)
    (he : e ∈ st.aliveSet) (hk : ∀ k ∈ ks, poolKeyOf e ≠ k) :
    e ∈ (ks.foldl (fun s k => removePool k s) st).aliveSet := by
  induction ks generalizing st with
  | nil => exact he
  | cons k ks ih =>
      refine ih _ ?_ (fun k2 hk2 => hk k2 (by simp [hk2]))
      exact List.mem_filter.mpr ⟨he, by simp [hk k (by simp)]⟩

lemma removePool_fold_subset (ks : List PoolKey) (st : GCState) (e : AlivePool)
    (he : e ∈ (ks.foldl (fun s k => removePool k s) st).aliveSet) :
    e ∈ st.aliveSet := by
  induction ks generalizing st with
  | nil => exact he
  | cons k ks ih =>
      have := ih _ he
      exact (List.mem_filter.mp this).1

lemma removePool_fold_removed (ks : List PoolKey) (st : GCState) (k : PoolKey)
    (hk : k ∈ ks) (e : AlivePool)
    (he : e ∈ (ks.foldl (fun s k => removePool k s) st).aliveSet) :
    poolKeyOf e ≠ k := by
  induction ks generalizing st with
  | nil => simp at hk
  | cons k2 ks ih =>
      rcases List.mem_cons.mp hk with rfl | hk
      · intro hke
        have hmem := removePool_fold_subset ks _ e he
        have := (List.mem_filter.mp hmem).2
        simp [hke] at this
      · exact ih _ hk he

lemma removePool_fold_cache_none (ks : List PoolKey) (st : GCState) (a : Addr)
    (h : st.stateCache a = none ∨ ∃ k ∈ ks, k.2 = a) :
    (ks.foldl (fun s k => removePool k s) st).stateCache a = none := by
  induction ks generalizing st with
  | nil => simpa using h.resolve_right (by simp)
  | cons k ks ih =>
      rcases h with h | ⟨k2, hk2, ha⟩
      · refine ih _ (Or.inl ?_)
        simp only [removePool]
        by_cases hak : a = k.2 <;> simp [hak, h]
      · rcases List.mem_cons.mp hk2 with rfl | hmem
        · refine ih _ (Or.inl ?_)
          simp [removePool, ha]
        · exact ih _ (Or.inr ⟨k2, hmem, ha⟩)

lemma removePool_fold_graceMap (ks : List PoolKey) (st : GCState) :
    (ks.foldl (fun s k => removePool k s) st).graceMap = st.graceMap := by
  induction ks generalizing st with
  | nil => rfl
  | cons k ks ih =>
      rw [List.foldl_cons, ih]
      rfl

lemma graceLookup_eq_none_iff (g : GraceMap) (k : PoolKey) :
    graceLookup g k = none ↔ kGraceEntries g k = [] := by
  rw [graceLookup_eq_head, Option.map_eq_none']
  exact List.head?_eq_none_iff

lemma kGraceEntries_filter (g : GraceMap) (p : PoolKey × ℕ → Bool)
    (k : PoolKey) :
    kGraceEntries (g.filter p) k = (kGraceEntries g k).filter p := by
  rw [kGraceEntries, List.filter_filter, kGraceEntries, List.filter_filter]
  exact List.filter_congr (fun kt _ => by rw [Bool.and_comm])

lemma mem_expiredKeys (gracePeriod now : ℕ) (g : GraceMap) (k : PoolKey) :
    k ∈ expiredKeys gracePeriod now g ↔
      ∃ kt ∈ kGraceEntries g k, gracePeriod ≤ now - kt.2 := by
  rw [expiredKeys]
  constructor
  · intro h
    obtain ⟨kt, hkt, hk⟩ := List.mem_map.mp h
    obtain ⟨hmem, hpred⟩ := List.mem_filter.mp hkt
    exact ⟨kt, List.mem_filter.mpr ⟨hmem, by simp [hk]⟩, by simpa using hpred⟩
  · rintro ⟨kt, hkt, hpred⟩
    obtain ⟨hmem, hk⟩ := List.mem_filter.mp hkt
    exact List.mem_map.mpr
      ⟨kt, List.mem_filter.mpr ⟨hmem, by simpa using hpred⟩, by simpa using hk⟩

lemma stepOne_kEntries (now : ℕ) (st : GCState) (l1 l2 : List AlivePool)
    (e : AlivePool) (hsplit : st.aliveSet = l1 ++ e :: l2)
    (huniq : ∀ e2 ∈ l1 ++ l2, poolKeyOf e2 ≠ poolKeyOf e) :
    kGraceEntries (cleanupStepOne now st) (poolKeyOf e) =
      if e.refCount = 0 then
        (if kGraceEntries st.graceMap (poolKeyOf e) = [] then
          [(poolKeyOf e, now)]
         else kGraceEntries st.graceMap (poolKeyOf e))
      else [] := by
  rw [cleanupStepOne, hsplit, List.foldl_append, List.foldl_cons]
  rw [gcTrack_fold_other now l2 _ _ (fun p hp => huniq p (by simp [hp]))]
  rw [gcTrackPool_own]
  rw [gcTrack_fold_other now l1 _ _ (fun p hp => huniq p (by simp [hp]))]

/-- C6.  One pass of the reclaimer's pool-eviction sweep, for a pool `e`
uniquely keyed in the alive set: (a) a ref-count first observed at zero gets
the sweep time recorded as its grace start and the pool survives the sweep;
(b) a pool revived before its grace elapsed has the recorded timestamp
cleared and is not evicted; (c) once `now - grace start` reaches the grace
period, the pool is removed from the alive set together with its state-cache
entry and its grace tracking; (d) while the grace period has not elapsed the
pool and its recorded timestamp are both kept. -/
theorem pool_eviction_grace (gracePeriod now : ℕ) (hgrace : 0 < gracePeriod)
    (st : GCState) (l1 l2 : List AlivePool) (e : AlivePool)
    (hsplit : st.aliveSet = l1 ++ e :: l2)
    (huniq : ∀ e2 ∈ l1 ++ l2, poolKeyOf e2 ≠ poolKeyOf e) :
    (e.refCount = 0 → graceLookup st.graceMap (poolKeyOf e) = none →
      graceLookup (cleanupPools gracePeriod now st).graceMap (poolKeyOf e) =
        some now ∧
      e ∈ (cleanupPools gracePeriod now st).aliveSet) ∧
    (e.refCount ≠ 0 →
      graceLookup (cleanupPools gracePeriod now st).graceMap (poolKeyOf e) =
        none ∧
      e ∈ (cleanupPools gracePeriod now st).aliveSet) ∧
    (∀ t, e.refCount = 0 →
      graceLookup st.graceMap (poolKeyOf e) = some t →
      (∀ kt ∈ st.graceMap, kt.1 = poolKeyOf e → kt.2 = t) →
      gracePeriod ≤ now - t →
      (∀ e2 ∈ (cleanupPools gracePeriod now st).aliveSet,
        poolKeyOf e2 ≠ poolKeyOf e) ∧
      (cleanupPools gracePeriod now st).stateCache e.address = none ∧
      graceLookup (cleanupPools gracePeriod now st).graceMap (poolKeyOf e) =
        none) ∧
    (∀ t, e.refCount = 0 →
      graceLookup st.graceMap (poolKeyOf e) = some t →
      (∀ kt ∈ st.graceMap, kt.1 = poolKeyOf e → kt.2 = t) →
      now - t < gracePeriod →
      e ∈ (cleanupPools gracePeriod now st).aliveSet ∧
      graceLookup (cleanupPools gracePeriod now st).graceMap (poolKeyOf e) =
        some t) := by
  have hkE := stepOne_kEntries now st l1 l2 e hsplit huniq
  have hemem : e ∈ st.aliveSet := by
    rw [hsplit]
    simp
  have halive : (cleanupPools gracePeriod now st).aliveSet =
      ((expiredKeys gracePeriod now (cleanupStepOne now st)).foldl
        (fun s k => removePool k s)
        { st with graceMap := cleanupStepOne now st }).aliveSet := rfl
  have hcacheq : (cleanupPools gracePeriod now st).stateCache =
      ((expiredKeys gracePeriod now (cleanupStepOne now st)).foldl
        (fun s k => removePool k s)
        { st with graceMap := cleanupStepOne now st }).stateCache := rfl
  have hgm : (cleanupPools gracePeriod now st).graceMap =
      (cleanupStepOne now st).filter
        (fun kt =>
          ¬ kt.1 ∈ expiredKeys gracePeriod now (cleanupStepOne now st)) := rfl
  have hsurvive : poolKeyOf e ∉
        expiredKeys gracePeriod now (cleanupStepOne now st) →
      e ∈ (cleanupPools gracePeriod now st).aliveSet := by
    intro hnot
    rw [halive]
    refine removePool_fold_mem _ _ e hemem (fun k2 hk2 hEq => ?_)
    rw [hEq] at hnot
    exact hnot hk2
  refine ⟨fun h0 hnone => ?_, fun hpos => ?_,
    fun t h0 hsome huniqT hge => ?_, fun t h0 hsome huniqT hlt => ?_⟩
  · have hnil : kGraceEntries st.graceMap (poolKeyOf e) = [] :=
      (graceLookup_eq_none_iff _ _).mp hnone
    have hkE1 : kGraceEntries (cleanupStepOne now st) (poolKeyOf e) =
        [(poolKeyOf e, now)] := by
      rw [hkE, if_pos h0, if_pos hnil]
    have hnotrem : poolKeyOf e ∉
        expiredKeys gracePeriod now (cleanupStepOne now st) := by
      rw [mem_expiredKeys, hkE1]
      rintro ⟨kt, hkt, hgekt⟩
      simp only [List.mem_singleton] at hkt
      rw [hkt] at hgekt
      simp only [Nat.sub_self] at hgekt
      omega
    refine ⟨?_, hsurvive hnotrem⟩
    rw [hgm, graceLookup_eq_head, kGraceEntries_filter, hkE1]
    simp [hnotrem]
  · have hkE1 : kGraceEntries (cleanupStepOne now st) (poolKeyOf e) = [] := by
      rw [hkE, if_neg hpos]
    have hnotrem : poolKeyOf e ∉
        expiredKeys gracePeriod now (cleanupStepOne now st) := by
      rw [mem_expiredKeys, hkE1]
      rintro ⟨kt, hkt, _⟩
      simp at hkt
    refine ⟨?_, hsurvive hnotrem⟩
    rw [hgm]
    refine (graceLookup_eq_none_iff _ _).mpr ?_
    rw [kGraceEntries_filter, hkE1]
    rfl
  · have hne : kGraceEntries st.graceMap (poolKeyOf e) ≠ [] := by
      intro hnil
      rw [(graceLookup_eq_none_iff _ _).mpr hnil] at hsome
      exact Option.noConfusion hsome
    have hkE1 : kGraceEntries (cleanupStepOne now st) (poolKeyOf e) =
        kGraceEntries st.graceMap (poolKeyOf e) := by
      rw [hkE, if_pos h0, if_neg hne]
    have hmemrem : poolKeyOf e ∈
        expiredKeys gracePeriod now (cleanupStepOne now st) := by
      rw [mem_expiredKeys, hkE1]
      rcases List.exists_mem_of_ne_nil _ hne with ⟨kt, hkt⟩
      obtain ⟨hmem, hk1⟩ := List.mem_filter.mp hkt
      have ht : kt.2 = t := huniqT kt hmem (by simpa using hk1)
      exact ⟨kt, hkt, by rw [ht]; exact hge⟩
    refine ⟨?_, ?_, ?_⟩
    · intro e2 he2
      rw [halive] at he2
      exact removePool_fold_removed _ _ (poolKeyOf e) hmemrem e2 he2
    · rw [hcacheq]
      exact removePool_fold_cache_none _ _ e.address
        (Or.inr ⟨poolKeyOf e, hmemrem, rfl⟩)
    · rw [hgm]
      refine (graceLookup_eq_none_iff _ _).mpr ?_
      rw [kGraceEntries_filter, hkE1, List.filter_eq_nil_iff]
      intro kt hkt
      obtain ⟨hmem, hk1⟩ := List.mem_filter.mp hkt
      have hk1' : kt.1 = poolKeyOf e := by simpa using hk1
      simp [hk1', hmemrem]
  · have hne : kGraceEntries st.graceMap (poolKeyOf e) ≠ [] := by
      intro hnil
      rw [(graceLookup_eq_none_iff _ _).mpr hnil] at hsome
      exact Option.noConfusion hsome
    have hkE1 : kGraceEntries (cleanupStepOne now st) (poolKeyOf e) =
        kGraceEntries st.graceMap (poolKeyOf e) := by
      rw [hkE, if_pos h0, if_neg hne]
    have hnotrem : poolKeyOf e ∉
        expiredKeys gracePeriod now (cleanupStepOne now st) := by
      rw [mem_expiredKeys, hkE1]
      rintro ⟨kt, hkt, hgekt⟩
      obtain ⟨hmem, hk1⟩ := List.mem_filter.mp hkt
      have ht : kt.2 = t := huniqT kt hmem (by simpa using hk1)
      rw [ht] at hgekt
      omega
    refine ⟨hsurvive hnotrem, ?_⟩
    rw [hgm, graceLookup_eq_head, kGraceEntries_filter, hkE1]
    have hall : (kGraceEntries st.graceMap (poolKeyOf e)).filter
        (fun kt =>
          ¬ kt.1 ∈ expiredKeys gracePeriod now (cleanupStepOne now st)) =
        kGraceEntries st.graceMap (poolKeyOf e) := by
      refine List.filter_eq_self.mpr (fun kt hkt => ?_)
      obtain ⟨hmem, hk1⟩ := List.mem_filter.mp hkt
      have hk1' : kt.1 = poolKeyOf e := by simpa using hk1
      simp [hk1', hnotrem]
    rw [hall, ← graceLookup_eq_head]
    exact hsome

/-- Concrete pool for the `pool_eviction_grace` witness: ref-count zero. -/
def gcPool : AlivePool :=
  { address := 9, chainId := 1, tier := .low, nextRefresh := 0,
    lastBlockSeen := 0, lastPrice := 0, refCount := 0, lastRequestTime := 0 }

/-- Witness for `pool_eviction_grace`: a single zero-ref-count pool with no
recorded grace start gets the sweep time recorded and survives the sweep. -/
theorem pool_eviction_grace_witness :
    (0 : ℕ) < 20000 ∧
    ({ aliveSet := [gcPool], stateCache := fun _ => none,
       graceMap := [] } : GCState).aliveSet = [] ++ gcPool :: [] ∧
    gcPool.refCount = 0 ∧
    graceLookup ([] : GraceMap) (poolKeyOf gcPool) = none ∧
    graceLookup
      (cleanupPools 20000 1000
        { aliveSet := [gcPool], stateCache := fun _ => none,
          graceMap := [] }).graceMap (poolKeyOf gcPool) = some 1000 ∧
    gcPool ∈
      (cleanupPools 20000 1000
        { aliveSet := [gcPool], stateCache := fun _ => none,
          graceMap := [] }).aliveSet := by
  have h := pool_eviction_grace 20000 1000 (by decide)
    { aliveSet := [gcPool], stateCache := fun _ => none, graceMap := [] }
    [] [] gcPool rfl (by simp)
  obtain ⟨hrec, hkeep⟩ := h.1 (by decide) rfl
  exact ⟨by decide, rfl, by decide, rfl, hrec, hkeep⟩

/-! ### Spot pricing engine (`SpotPricingEngine.computeSpotPrice`)

The resolver returns 1.0 for USD stablecoins without touching the cache,
`null` (here the inner `none`) when the registry has no route for the token
or no hop has a cached pool state, and otherwise prices through the first
cached hop, preferring one whose base is itself a stablecoin.  The raw pool
price is `(sqrtPriceX96 / 2^96)^2`, decimal-adjusted by
`10^(token0Decimals - token1Decimals)` and inverted (behind a zero guard)
when the priced token is not `token0`.  The source's recursion on the hop's
base token has no explicit depth bound; it is embedded with a fuel argument
whose exhaustion (the outer `none`) is distinct from a null price. -/

/-- Cached on-chain pool state as read by the pricing engine. -/
structure PoolState where
  sqrtPriceX96 : ℕ
  token0 : Addr
  token1 : Addr
deriving Repr, DecidableEq

/-- The static and cached context `computeSpotPrice` reads: per-chain
stablecoin classification, the hardcoded `TOKEN_DECIMALS` table, cached
token metadata decimals, the registry's pricing routes (empty list for
absent) and the shared pool-state cache. -/
structure PricingEnv where
  stable : ℕ → Addr → Bool
  decimalsTable : Addr → Option ℕ
  metaDecimals : Addr → Option ℕ
  pricingRoutes : Addr → List Route
  poolState : Addr → Option PoolState

/-- Mirrors `getDecimals`: the hardcoded table first, then cached metadata,
default 18. -/
def getDecimals (env : PricingEnv) (a : Addr) : ℕ :=
  match env.decimalsTable a with
  | some d => d
  | none => (env.metaDecimals a).getD 18

/-- The per-hop price computed from a cached pool state: raw price
`(sqrtPriceX96 / 2^96)^2`, decimal adjustment
`10^(token0Decimals - token1Decimals)`, and the guarded inversion
`isToken0 ? rawPrice : (rawPrice > 0 ? 1 / rawPrice : 0)`. -/
def spotHopPrice (env : PricingEnv) (ps : PoolState) (tokenAddress : Addr) : ℚ :=
  let sqrtPrice : ℚ := (ps.sqrtPriceX96 : ℚ) / 2 ^ 96
  let rawPrice := sqrtPrice * sqrtPrice *
    (10 : ℚ) ^ ((getDecimals env ps.token0 : ℤ) - (getDecimals env ps.token1 : ℤ))
  if ps.token0 = tokenAddress then rawPrice
  else if rawPrice > 0 then 1 / rawPrice else 0

/-- The two-pass route selection of `computeSpotPrice`: first a route whose
base is a stablecoin and whose pool is cached, otherwise any route with a
cached pool. -/
def bestRouteFor (env : PricingEnv) (chainId : ℕ) (routes : List Route) :
    Option Route :=
  (routes.find? (fun route =>
    (env.poolState route.pool).isSome && env.stable chainId route.base)).or
    (routes.find? (fun route => (env.poolState route.pool).isSome))

/-- Mirrors `computeSpotPrice(tokenAddress, chainId)`.  The outer `Option`
models the call stack (fuel exhaustion stands for the recursion not
returning); the inner `Option` is the source's `number | null` result. -/
def computeSpotPrice (env : PricingEnv) (chainId : ℕ) :
    ℕ → Addr → Option (Option ℚ)
  | 0, _ => none
  | fuel + 1, tokenAddress =>
    if env.stable chainId tokenAddress then some (some 1)
    else
      let routes := env.pricingRoutes tokenAddress
      if routes.isEmpty then some none
      else
        match bestRouteFor env chainId routes with
        | none => some none
        | some route =>
          match env.poolState route.pool with
          | none => some none
          | some poolState =>
            let priceInBaseToken := spotHopPrice env poolState tokenAddress
            if env.stable chainId route.base then some (some priceInBaseToken)
            else
              match computeSpotPrice env chainId fuel route.base with
              | none => none
              | some none => some none
              | some (some baseUsd) => some (some (priceInBaseToken * baseUsd))

/-- C7.  The resolver returns 1.0 immediately for a USD-pegged stable asset
(for every pool-state cache, so the result involves no cache lookup), and
returns the explicit absent result — not an exception — when the token has
no pricing route or when no hop of its route has a cached pool state. -/
theorem priceOf_error_paths (env : PricingEnv) (chainId : ℕ) (fuel : ℕ)
    (token : Addr) (hfuel : 0 < fuel) :
    (env.stable chainId token = true →
      computeSpotPrice env chainId fuel token = some (some 1)) ∧
    (env.stable chainId token = false → env.pricingRoutes token = [] →
      computeSpotPrice env chainId fuel token = some none) ∧
    (env.stable chainId token = false →
      (∀ route ∈ env.pricingRoutes token, env.poolState route.pool = none) →
      computeSpotPrice env chainId fuel token = some none) := by
  cases fuel with
  | zero => omega
  | succ f =>
      refine ⟨fun hs => ?_, fun hs hroutes => ?_, fun hs hnone => ?_⟩
      · simp [computeSpotPrice, hs]
      · simp [computeSpotPrice, hs, hroutes]
      · have hfind1 : (env.pricingRoutes token).find? (fun route =>
            (env.poolState route.pool).isSome &&
              env.stable chainId route.base) = none := by
          rw [List.find?_eq_none]
          intro route hmem
          simp [hnone route hmem]
        have hfind2 : (env.pricingRoutes token).find? (fun route =>
            (env.poolState route.pool).isSome) = none := by
          rw [List.find?_eq_none]
          intro route hmem
          simp [hnone route hmem]
        simp [computeSpotPrice, bestRouteFor, hs, hfind1, hfind2]

/-- Witness for `priceOf_error_paths`: token 1 is stable, token 5 has no
route, token 6 has one route whose pool has no cached state. -/
theorem priceOf_error_paths_witness :
    (0 : ℕ) < 1 ∧
    computeSpotPrice
      { stable := fun c a => c = 137 && a = 1
        decimalsTable := fun _ => none
        metaDecimals := fun _ => none
        pricingRoutes := fun a => if a = 6 then [⟨200, 1⟩] else []
        poolState := fun _ => none } 137 1 1 = some (some 1) ∧
    computeSpotPrice
      { stable := fun c a => c = 137 && a = 1
        decimalsTable := fun _ => none
        metaDecimals := fun _ => none
        pricingRoutes := fun a => if a = 6 then [⟨200, 1⟩] else []
        poolState := fun _ => none } 137 1 5 = some none ∧
    computeSpotPrice
      { stable := fun c a => c = 137 && a = 1
        decimalsTable := fun _ => none
        metaDecimals := fun _ => none
        pricingRoutes := fun a => if a = 6 then [⟨200, 1⟩] else []
        poolState := fun _ => none } 137 1 6 = some none := by
  refine ⟨by decide, ?_, ?_, ?_⟩
  · exact (priceOf_error_paths _ 137 1 1 (by decide)).1 (by decide)
  · exact (priceOf_error_paths _ 137 1 5 (by decide)).2.1 (by decide) (by decide)
  · exact (priceOf_error_paths _ 137 1 6 (by decide)).2.2 (by decide)
      (by intro route hmem; rfl)

lemma bestRouteFor_mem (env : PricingEnv) (chainId : ℕ) (routes : List Route)
    (route : Route) (h : bestRouteFor env chainId routes = some route) :
    route ∈ routes := by
  rw [bestRouteFor] at h
  cases hfp : routes.find? (fun route =>
      (env.poolState route.pool).isSome && env.stable chainId route.base) with
  | some r =>
      rw [hfp] at h
      simp only [Option.or] at h
      cases h
      exact List.mem_of_find?_eq_some hfp
  | none =>
      rw [hfp] at h
      simp only [Option.or] at h
      exact List.mem_of_find?_eq_some h

lemma computeSpotPrice_single_route (env : PricingEnv) (chainId fuel : ℕ)
    (token : Addr) (route : Route) (ps : PoolState)
    (hs : env.stable chainId token = false)
    (hroutes : env.pricingRoutes token = [route])
    (hps : env.poolState route.pool = some ps)
    (hbase : env.stable chainId route.base = true) :
    computeSpotPrice env chainId (fuel + 1) token =
      some (some (spotHopPrice env ps token)) := by
  have hbr : bestRouteFor env chainId [route] = some route := by
    rw [bestRouteFor, List.find?_cons_of_pos _ (by simp [hps, hbase])]
    rfl
  simp [computeSpotPrice, hs, hroutes, hbr, hps, hbase]

/-- C8.  Through a cached single-hop stable-base route, the resolver's price
is the raw pool price `(sqrtPriceX96 / 2^96)^2` scaled by
`10^(token0Decimals - token1Decimals)`, inverted (behind the zero guard)
exactly when the priced token sits on the `token1` side of the pool and left
as is when it is `token0`; and a token absent from both the hardcoded table
and the cached metadata defaults to 18 decimals. -/
theorem hop_price_orientation (env : PricingEnv) (chainId fuel : ℕ)
    (token : Addr) (route : Route) (ps : PoolState)
    (hs : env.stable chainId token = false)
    (hroutes : env.pricingRoutes token = [route])
    (hps : env.poolState route.pool = some ps)
    (hbase : env.stable chainId route.base = true)
    (hside : token = ps.token0 ∨ token = ps.token1)
    (hdistinct : ps.token0 ≠ ps.token1) :
    (computeSpotPrice env chainId (fuel + 1) token =
      some (some (
        if token = ps.token1 then
          (if 0 < ((ps.sqrtPriceX96 : ℚ) / 2 ^ 96) *
              ((ps.sqrtPriceX96 : ℚ) / 2 ^ 96) *
              (10 : ℚ) ^ ((getDecimals env ps.token0 : ℤ) -
                (getDecimals env ps.token1 : ℤ)) then
            1 / (((ps.sqrtPriceX96 : ℚ) / 2 ^ 96) *
              ((ps.sqrtPriceX96 : ℚ) / 2 ^ 96) *
              (10 : ℚ) ^ ((getDecimals env ps.token0 : ℤ) -
                (getDecimals env ps.token1 : ℤ)))
          else 0)
        else
          ((ps.sqrtPriceX96 : ℚ) / 2 ^ 96) * ((ps.sqrtPriceX96 : ℚ) / 2 ^ 96) *
            (10 : ℚ) ^ ((getDecimals env ps.token0 : ℤ) -
              (getDecimals env ps.token1 : ℤ))))) ∧
    (∀ a, env.decimalsTable a = none → env.metaDecimals a = none →
      getDecimals env a = 18) := by
  constructor
  · rw [computeSpotPrice_single_route env chainId fuel token route ps hs
      hroutes hps hbase]
    congr 2
    rcases hside with h0 | h1
    · have hnot1 : ¬ token = ps.token1 := fun h => hdistinct (h0 ▸ h)
      rw [spotHopPrice, if_neg hnot1]
      simp only [if_pos h0.symm]
    · have hnot0 : ¬ ps.token0 = token := fun h => hdistinct (h1 ▸ h)
      rw [spotHopPrice, if_pos h1]
      simp only [if_neg hnot0]
  · intro a h1 h2
    rw [getDecimals, h1, h2]
    rfl

/-- Witness environment for the pricing-formula and recursion claims: token
100 prices through pool 200 against WETH (address 50), which prices through
pool 201 against the stablecoin at address 1; pool 202 pairs token 101 on
the `token1` side, and all decimals default to 18. -/
def pricingEnvW : PricingEnv :=
  { stable := fun c a => c = 1 && a = 1
    decimalsTable := fun a => if a = 1 then some 6 else none
    metaDecimals := fun _ => none
    pricingRoutes := fun a =>
      if a = 100 then [⟨200, 50⟩]
      else if a = 50 then [⟨201, 1⟩]
      else if a = 101 then [⟨202, 1⟩]
      else []
    poolState := fun p =>
      if p = 200 then some { sqrtPriceX96 := 2 ^ 96, token0 := 100, token1 := 50 }
      else if p = 201 then some { sqrtPriceX96 := 2 ^ 96, token0 := 50, token1 := 1 }
      else if p = 202 then some { sqrtPriceX96 := 2 ^ 96, token0 := 1, token1 := 101 }
      else none }

/-- Witness for `hop_price_orientation`: token 101 sits on the `token1` side
of pool 202 (sqrt price `2^96`, so raw price 1, decimal adjustment
`10^(6-18)`), and the resolver inverts the adjusted price. -/
theorem hop_price_orientation_witness :
    pricingEnvW.stable 1 101 = false ∧
    pricingEnvW.pricingRoutes 101 = [⟨202, 1⟩] ∧
    pricingEnvW.poolState 202 =
      some { sqrtPriceX96 := 2 ^ 96, token0 := 1, token1 := 101 } ∧
    computeSpotPrice pricingEnvW 1 1 101 = some (some ((10 : ℚ) ^ (12 : ℕ))) := by
  refine ⟨by decide, by decide, by decide, ?_⟩
  have h := (hop_price_orientation pricingEnvW 1 0 101 ⟨202, 1⟩
    { sqrtPriceX96 := 2 ^ 96, token0 := 1, token1 := 101 }
    (by decide) (by decide) (by decide) (by decide) (Or.inr rfl)
    (by decide)).1
  rw [h]
  norm_num [getDecimals, pricingEnvW]

/-- The registry discipline behind the spec's two-hop maximum, phrased for
the resolver's hop structure: every route hop either reaches a stablecoin
directly, or reaches a base token all of whose own route hops reach a
stablecoin. -/
def TwoHopRegistry (env : PricingEnv) (chainId : ℕ) : Prop :=
  ∀ token : Addr, ∀ route ∈ env.pricingRoutes token,
    env.stable chainId route.base = true ∨
    ∀ route2 ∈ env.pricingRoutes route.base,
      env.stable chainId route2.base = true

lemma computeSpotPrice_depth_one (env : PricingEnv) (chainId : ℕ)
    (token : Addr)
    (h : ∀ route ∈ env.pricingRoutes token,
      env.stable chainId route.base = true) (fuel : ℕ) :
    (computeSpotPrice env chainId (fuel + 1) token).isSome ∧
    computeSpotPrice env chainId (fuel + 1) token =
      computeSpotPrice env chainId 1 token := by
  by_cases hs : env.stable chainId token = true
  · constructor <;> simp [computeSpotPrice, hs]
  · have hs' : env.stable chainId token = false := by simpa using hs
    by_cases hempty : (env.pricingRoutes token).isEmpty = true
    · constructor <;> simp [computeSpotPrice, hs', hempty]
    · have hempty' : (env.pricingRoutes token).isEmpty = false := by
        simpa using hempty
      cases hbr : bestRouteFor env chainId (env.pricingRoutes token) with
      | none => constructor <;> simp [computeSpotPrice, hs', hempty', hbr]
      | some route =>
          have hbase : env.stable chainId route.base = true :=
            h route (bestRouteFor_mem env chainId _ route hbr)
          cases hpsr : env.poolState route.pool with
          | none =>
              constructor <;> simp [computeSpotPrice, hs', hempty', hbr, hpsr]
          | some ps =>
              constructor <;>
                simp [computeSpotPrice, hs', hempty', hbr, hpsr, hbase]

lemma computeSpotPrice_recursive_case (env : PricingEnv) (chainId fuel : ℕ)
    (token : Addr) (route : Route) (ps : PoolState)
    (hs : env.stable chainId token = false)
    (hempty : (env.pricingRoutes token).isEmpty = false)
    (hbr : bestRouteFor env chainId (env.pricingRoutes token) = some route)
    (hps : env.poolState route.pool = some ps)
    (hbase : env.stable chainId route.base = false) :
    computeSpotPrice env chainId (fuel + 1) token =
      match computeSpotPrice env chainId fuel route.base with
      | none => none
      | some none => some none
      | some (some baseUsd) =>
          some (some (spotHopPrice env ps token * baseUsd)) := by
  simp [computeSpotPrice, hs, hempty, hbr, hps, hbase]

lemma computeSpotPrice_two_hop_aux (env : PricingEnv) (chainId : ℕ)
    (h : TwoHopRegistry env chainId) (token : Addr) (f : ℕ) :
    (computeSpotPrice env chainId (f + 1 + 1) token).isSome ∧
    computeSpotPrice env chainId (f + 1 + 1) token =
      computeSpotPrice env chainId (0 + 1 + 1) token := by
  by_cases hs : env.stable chainId token = true
  · constructor <;> simp [computeSpotPrice, hs]
  · have hs' : env.stable chainId token = false := by simpa using hs
    by_cases hempty : (env.pricingRoutes token).isEmpty = true
    · constructor <;> simp [computeSpotPrice, hs', hempty]
    · have hempty' : (env.pricingRoutes token).isEmpty = false := by
        simpa using hempty
      cases hbr : bestRouteFor env chainId (env.pricingRoutes token) with
      | none => constructor <;> simp [computeSpotPrice, hs', hempty', hbr]
      | some route =>
          cases hpsr : env.poolState route.pool with
          | none =>
              constructor <;> simp [computeSpotPrice, hs', hempty', hbr, hpsr]
          | some ps =>
              by_cases hbase : env.stable chainId route.base = true
              · constructor <;>
                  simp [computeSpotPrice, hs', hempty', hbr, hpsr, hbase]
              · have hbase' : env.stable chainId route.base = false := by
                  simpa using hbase
                have hall : ∀ route2 ∈ env.pricingRoutes route.base,
                    env.stable chainId route2.base = true :=
                  (h token route (bestRouteFor_mem env chainId _ route hbr)).resolve_left
                    (by simp [hbase'])
                have hdL := computeSpotPrice_depth_one env chainId route.base
                  hall f
                have hdR := computeSpotPrice_depth_one env chainId route.base
                  hall 0
                obtain ⟨val, hval⟩ := Option.isSome_iff_exists.mp hdR.1
                have hval1 : computeSpotPrice env chainId 1 route.base =
                    some val := by
                  rw [← hdR.2]
                  exact hval
                rw [computeSpotPrice_recursive_case env chainId (f + 1) token
                    route ps hs' hempty' hbr hpsr hbase',
                  computeSpotPrice_recursive_case env chainId (0 + 1) token
                    route ps hs' hempty' hbr hpsr hbase',
                  hdL.2, hdR.2, hval1]
                cases val <;> simp

/-- C9.  When the selected hop's base is not a stable asset the resolver
recurses on the base token; under a registry respecting the two-hop maximum
this recursion is bounded to one additional hop: a call depth of 2 always
returns (no fuel exhaustion), and any larger depth computes the same
result, so price resolution terminates for every token. -/
theorem pricing_recursion_two_hop (env : PricingEnv) (chainId : ℕ)
    (h : TwoHopRegistry env chainId) (token : Addr) :
    (computeSpotPrice env chainId 2 token).isSome ∧
    ∀ fuel, 2 ≤ fuel →
      computeSpotPrice env chainId fuel token =
        computeSpotPrice env chainId 2 token := by
  constructor
  · exact (computeSpotPrice_two_hop_aux env chainId h token 0).1
  · intro fuel hfuel
    obtain ⟨f, rfl⟩ : ∃ f, fuel = f + 1 + 1 := ⟨fuel - 2, by omega⟩
    exact (computeSpotPrice_two_hop_aux env chainId h token f).2

lemma pricingEnvW_two_hop : TwoHopRegistry pricingEnvW 1 := by
  intro token route hmem
  by_cases h100 : token = 100
  · subst h100
    have hr : route = ⟨200, 50⟩ := by simpa [pricingEnvW] using hmem
    subst hr
    refine Or.inr (fun route2 hmem2 => ?_)
    have hr2 : route2 = ⟨201, 1⟩ := by simpa [pricingEnvW] using hmem2
    subst hr2
    decide
  · by_cases h50 : token = 50
    · subst h50
      have hr : route = ⟨201, 1⟩ := by simpa [pricingEnvW] using hmem
      subst hr
      exact Or.inl (by decide)
    · by_cases h101 : token = 101
      · subst h101
        have hr : route = ⟨202, 1⟩ := by simpa [pricingEnvW] using hmem
        subst hr
        exact Or.inl (by decide)
      · simp [pricingEnvW, h100, h50, h101] at hmem

/-- Witness for `pricing_recursion_two_hop`: in the two-hop witness registry,
depth 2 resolves token 100 (via WETH, then the stablecoin) and depth 7
computes the same value. -/
theorem pricing_recursion_two_hop_witness :
    (computeSpotPrice pricingEnvW 1 2 100).isSome ∧
    computeSpotPrice pricingEnvW 1 7 100 = computeSpotPrice pricingEnvW 1 2 100 := by
  obtain ⟨hsome, heq⟩ :=
    pricing_recursion_two_hop pricingEnvW 1 pricingEnvW_two_hop 100
  exact ⟨hsome, heq 7 (by omega)⟩

/-- C10.  For a cached pool state whose raw price is zero (here
`sqrtPriceX96 = 0`) with the priced token on the `token1` side, the
inversion is guarded: the resolver returns the present price 0 for the hop
rather than dividing by zero or reporting absence. -/
theorem zero_price_inversion_guard (env : PricingEnv) (chainId fuel : ℕ)
    (token : Addr) (route : Route) (ps : PoolState)
    (hs : env.stable chainId token = false)
    (hroutes : env.pricingRoutes token = [route])
    (hps : env.poolState route.pool = some ps)
    (hbase : env.stable chainId route.base = true)
    (hzero : ps.sqrtPriceX96 = 0)
    (hside : token = ps.token1) (hdistinct : ps.token0 ≠ ps.token1) :
    computeSpotPrice env chainId (fuel + 1) token = some (some 0) := by
  rw [computeSpotPrice_single_route env chainId fuel token route ps hs
    hroutes hps hbase]
  have hnot0 : ¬ ps.token0 = token := fun h => hdistinct (hside ▸ h)
  congr 2
  simp [spotHopPrice, hzero, hnot0]

/-- Witness for `zero_price_inversion_guard`: the witness environment with
pool 202's sqrt price zeroed out still yields the present price 0 for token
101. -/
theorem zero_price_inversion_guard_witness :
    computeSpotPrice
      { pricingEnvW with
          poolState := fun p =>
            if p = 202 then some { sqrtPriceX96 := 0, token0 := 1, token1 := 101 }
            else none } 1 1 101 = some (some 0) := by
  exact zero_price_inversion_guard
    { pricingEnvW with
        poolState := fun p =>
          if p = 202 then some { sqrtPriceX96 := 0, token0 := 1, token1 := 101 }
          else none } 1 0 101 ⟨202, 1⟩
    { sqrtPriceX96 := 0, token0 := 1, token1 := 101 }
    (by decide) (by decide) (by decide) (by decide) (by decide) rfl (by decide)

end BetEnder
